import Mathlib

/-!
Shallow embedding of the semantic-code-search core (`src/data.rs`, `src/main.rs`):
the token data model (`UnitFlow`), query predicates (`QueryOps`), the backtracking
subsequence matcher (`Database.match_flow`), the type-variable degree count
(`Database.count_typevar_flows`), the query parser (`QueryOps.parse_token`,
`QueryOps.parse_query`) and the search driver (`search_dataflows`).

Rust strings are modelled as `List Char`.  Fallible parsing returns
`Except (List Char) QueryOps` wrapped in `Option`: `none` models a Rust panic
(out-of-order slice index), `some (.err e)` a returned `Err(e)`.
-/

/-- Rust struct `Type` (the name `Type` is reserved in Lean): a type occurrence. -/
structure Typ where
  name : List Char
  args : List (List Char)
  desc : Option (List Char)
deriving DecidableEq

/-- Rust struct `ConstructorArg`. -/
structure ConstructorArg where
  name : List Char
  arg_index : Nat
  desc : Option (List Char)
deriving DecidableEq

/-- Rust struct `ProgLoc`. -/
structure ProgLoc where
  line : List Char
  char_range : Nat × Nat
  desc : Option (List Char)
deriving DecidableEq

/-- Rust struct `TypeVar`. -/
structure TypeVar where
  name : List Char
  desc : Option (List Char)
deriving DecidableEq

/-- Rust enum `UnitFlow` (variant `Type` renamed to `Typ`). -/
inductive UnitFlow where
  | Typ (t : Typ)
  | ConstructorArg (c : ConstructorArg)
  | TypeVar (tv : TypeVar)
  | ProgLoc (p : ProgLoc)
deriving DecidableEq

/-- Rust struct `Database`: flows plus the two load-time indexes (the indexes are
not consulted by any of the matching code). -/
structure Database where
  data_flows : List (List UnitFlow)
  file_path : List Char
  types : List (List Char × Typ)
  type_vars : List (List Char)
deriving DecidableEq

/-- Rust struct `QConstructorArg`. -/
structure QConstructorArg where
  name : List Char
  arg_index : Option Nat
  desc : Option (List Char)
deriving DecidableEq

/-- Rust struct `QType`. -/
structure QType where
  name : List Char
  desc : Option (List Char)
deriving DecidableEq

/-- Rust enum `QueryOps`. -/
inductive QueryOps where
  | QTypeVar (count : Nat)
  | QConstructorArg (q : QConstructorArg)
  | QType (q : QType)
  | QDesc (d : List Char)
deriving DecidableEq

/-- Model of `Database::count_typevar_flows`: how many flows of the database contain a
`TypeVar` token with the given name (each flow counted once). -/
def Database.count_typevar_flows (db : Database) (typevar_name : List Char) : Nat :=
  (db.data_flows.filter fun flow =>
    flow.any fun unit =>
      match unit with
      | UnitFlow.TypeVar tv => tv.name == typevar_name
      | _ => false).length

/-- Model of `Database::match_unit_flow`: test one token against one predicate. -/
def Database.match_unit_flow (db : Database) (uf : UnitFlow) (query : QueryOps) : Bool :=
  match uf, query with
  | UnitFlow.TypeVar tv, QueryOps.QTypeVar count =>
      db.count_typevar_flows tv.name == count
  | UnitFlow.Typ t, QueryOps.QType q => t.name == q.name
  | UnitFlow.ConstructorArg c, QueryOps.QConstructorArg q =>
      c.name == q.name &&
        (match q.arg_index with
         | none => true
         | some idx => c.arg_index == idx)
  | uf, QueryOps.QDesc d =>
      (match uf with
       | UnitFlow.Typ t => t.desc == some d
       | UnitFlow.ConstructorArg c => c.desc == some d
       | UnitFlow.TypeVar tv => tv.desc == some d
       | UnitFlow.ProgLoc p => p.desc == some d)
  | _, _ => false

/-- Model of `Database::match_flow`: backtracking ordered-subsequence matcher.  For a
non-empty query, scan every position of the flow (Rust: `f.iter().enumerate()`);
at a position whose token satisfies the head predicate, recursively match the
remaining query against the flow suffix after that position. -/
def Database.match_flow (db : Database) : List UnitFlow → List QueryOps → Bool
  | _, [] => true
  | flow, next_query :: rest =>
      flow.enum.any fun p =>
        db.match_unit_flow p.2 next_query && db.match_flow (flow.drop (p.1 + 1)) rest

/-- Model of `search_dataflows` (from `src/main.rs`): filter the database's flows by the
matcher, preserving order. -/
def search_dataflows (db : Database) (query : List QueryOps) : List (List UnitFlow) :=
  db.data_flows.filter fun flow => db.match_flow flow query

instance {ε α : Type} [DecidableEq ε] [DecidableEq α] : DecidableEq (Except ε α) := fun x y =>
  match x, y with
  | Except.ok a, Except.ok b =>
      if h : a = b then Decidable.isTrue (h ▸ rfl)
      else Decidable.isFalse (fun hh => h (Except.ok.inj hh))
  | Except.error a, Except.error b =>
      if h : a = b then Decidable.isTrue (h ▸ rfl)
      else Decidable.isFalse (fun hh => h (Except.error.inj hh))
  | Except.ok _, Except.error _ => Decidable.isFalse (fun hh => Except.noConfusion hh)
  | Except.error _, Except.ok _ => Decidable.isFalse (fun hh => Except.noConfusion hh)

/-- Rust `str::trim` on a `List Char`: strip leading and trailing whitespace. -/
def trimList (s : List Char) : List Char :=
  ((s.dropWhile Char.isWhitespace).reverse.dropWhile Char.isWhitespace).reverse

/-- Rust `str::split` on a character predicate: `n` delimiter occurrences yield
`n + 1` (possibly empty) parts; the empty string yields one empty part. -/
def splitOnPred (p : Char → Bool) : List Char → List (List Char)
  | [] => [[]]
  | c :: rest =>
      match splitOnPred p rest with
      | [] => [[c]]
      | part :: parts => if p c then [] :: part :: parts else (c :: part) :: parts

/-- Rust `str::parse::<usize>` on a 64-bit target: an optional leading `+`
followed by one or more ASCII digits, value at most `2 ^ 64 - 1`;
anything else is a parse error (`none`). -/
def rustParseUsize (s : List Char) : Option Nat :=
  let digits := match s with
    | '+' :: rest => rest
    | _ => s
  if digits.isEmpty then none
  else if digits.all Char.isDigit then
    let v := digits.foldl (fun acc c => acc * 10 + (c.toNat - 48)) 0
    if v < 2 ^ 64 then some v else none
  else none

/-- Model of `QueryOps::parse_token`.  `none` models the Rust panic that occurs when the
quoted-description branch slices `s[1..s.len()-1]` with `s.len() < 2`
(slice start 1 exceeds slice end 0); every other outcome is `some` of the
returned `Result`. -/
def QueryOps.parse_token (token : List Char) : Option (Except (List Char) QueryOps) :=
  match trimList token with
  | '#' :: rest =>
      some (match rustParseUsize rest with
        | some n => Except.ok (QueryOps.QTypeVar n)
        | none => Except.error ("Invalid type variable count".toList))
  | '@' :: rest =>
      let parts := splitOnPred (fun c => c == '.' || c == ':') rest
      some (match parts with
        | [name] => Except.ok (QueryOps.QConstructorArg ⟨name, none, none⟩)
        | [name, second] =>
            match rustParseUsize second with
            | some idx => Except.ok (QueryOps.QConstructorArg ⟨name, some idx, none⟩)
            | none => Except.ok (QueryOps.QConstructorArg ⟨name, none, some second⟩)
        | _ => Except.error ("Invalid constructor arg syntax".toList))
  | s =>
      if (match s with | '"' :: _ => true | _ => false) && s.getLast? == some '"' then
        -- Rust slices s[1..s.len()-1]; for s.len() < 2 the slice bounds are
        -- out of order (1 > 0) and the program panics.
        if 2 ≤ s.length then
          some (Except.ok (QueryOps.QDesc ((s.drop 1).dropLast)))
        else none
      else
        some (match splitOnPred (fun c => c == ':') s with
          | [name] => Except.ok (QueryOps.QType ⟨name, none⟩)
          | [name, desc] => Except.ok (QueryOps.QType ⟨name, some desc⟩)
          | _ => Except.error ("Invalid type syntax".toList))

/-- Rust `Iterator::collect::<Result<Vec<_>, _>>` over the lazily mapped
`parse_token`: stop at the first `Err`; a panic (`none`) in an earlier token
happens before later tokens are examined. -/
def QueryOps.collect_tokens : List (List Char) → Option (Except (List Char) (List QueryOps))
  | [] => some (Except.ok [])
  | t :: ts =>
      match QueryOps.parse_token t with
      | none => none
      | some (Except.error e) => some (Except.error e)
      | some (Except.ok q) =>
          match QueryOps.collect_tokens ts with
          | none => none
          | some (Except.error e) => some (Except.error e)
          | some (Except.ok qs) => some (Except.ok (q :: qs))

/-- Model of `QueryOps::parse_query`: split on commas, trim every field, drop empty
fields, then parse each remaining token, stopping at the first error. -/
def QueryOps.parse_query (input : List Char) : Option (Except (List Char) (List QueryOps)) :=
  QueryOps.collect_tokens
    (((splitOnPred (fun c => c == ',') input).map trimList).filter (fun s => !s.isEmpty))

/-- Specification predicate (the spec's ordered-subsequence semantics): there is
a strictly increasing list of positions in the flow, one per predicate of the
query in order, whose token satisfies that predicate. -/
def IncreasingMatch (db : Database) (flow : List UnitFlow) (query : List QueryOps) : Prop :=
  ∃ pos : List Nat,
    List.Sorted (fun a b => a < b) pos ∧
    List.Forall₂ (fun i q => ∃ u, flow[i]? = some u ∧ db.match_unit_flow u q = true) pos query

/-- Description field shared by all four token variants. -/
def UnitFlow.desc : UnitFlow → Option (List Char)
  | UnitFlow.Typ t => t.desc
  | UnitFlow.ConstructorArg c => c.desc
  | UnitFlow.TypeVar tv => tv.desc
  | UnitFlow.ProgLoc p => p.desc

/-- Token/predicate pairs whose variants are unrelated: the predicate is not
`QDesc` (which relates to every variant) and its variant differs from the
token's. -/
def unrelatedPair (uf : UnitFlow) (q : QueryOps) : Bool :=
  match uf, q with
  | _, QueryOps.QDesc _ => false
  | UnitFlow.TypeVar _, QueryOps.QTypeVar _ => false
  | UnitFlow.Typ _, QueryOps.QType _ => false
  | UnitFlow.ConstructorArg _, QueryOps.QConstructorArg _ => false
  | _, _ => true

/-- The token is a `TypeVar` token with the given name (spec wording:
"the flow contains some TypeVarToken named n"). -/
def IsTypeVarNamed (n : List Char) (u : UnitFlow) : Prop :=
  match u with
  | UnitFlow.TypeVar tv => tv.name = n
  | _ => False

instance (n : List Char) : DecidablePred (IsTypeVarNamed n) := fun u =>
  match u with
  | UnitFlow.TypeVar tv => (inferInstance : Decidable (tv.name = n))
  | UnitFlow.Typ _ => Decidable.isFalse (fun h => h)
  | UnitFlow.ConstructorArg _ => Decidable.isFalse (fun h => h)
  | UnitFlow.ProgLoc _ => Decidable.isFalse (fun h => h)

/-- Specification count (the spec's words): the number of distinct flows of the
database that contain some `TypeVar` token named `n`. -/
def flowsContainingTypeVar (db : Database) (n : List Char) : Nat :=
  (db.data_flows.filter fun flow => decide (∃ u ∈ flow, IsTypeVarNamed n u)).length

lemma match_flow_nil_query (db : Database) (flow : List UnitFlow) :
    db.match_flow flow [] = true := by
  cases flow <;> rfl

lemma match_flow_cons_iff (db : Database) (flow : List UnitFlow) (q : QueryOps)
    (rest : List QueryOps) :
    db.match_flow flow (q :: rest) = true ↔
      ∃ i, ∃ _ : i < flow.length,
        db.match_unit_flow flow[i] q = true ∧ db.match_flow (flow.drop (i + 1)) rest = true := by
  simp only [Database.match_flow, List.any_eq_true, List.exists_mem_enum, Bool.and_eq_true]

lemma forall₂_shift_up (P : Nat → QueryOps → Prop) (k : Nat) :
    ∀ {pos : List Nat} {rest : List QueryOps},
      List.Forall₂ (fun j q => P (k + j) q) pos rest →
      List.Forall₂ P (pos.map (fun j => k + j)) rest := by
  intro pos
  induction pos with
  | nil => intro rest h; cases h; exact List.Forall₂.nil
  | cons a l ih =>
    intro rest h
    cases h with
    | cons hab htail => exact List.Forall₂.cons hab (ih htail)

lemma forall₂_shift_down (P : Nat → QueryOps → Prop) (k : Nat) :
    ∀ {pos : List Nat} {rest : List QueryOps},
      (∀ j ∈ pos, k ≤ j) → List.Forall₂ P pos rest →
      List.Forall₂ (fun j q => P (k + j) q) (pos.map (fun j => j - k)) rest := by
  intro pos
  induction pos with
  | nil => intro rest _ h; cases h; exact List.Forall₂.nil
  | cons a l ih =>
    intro rest hge h
    cases h with
    | cons hab htail =>
      refine List.Forall₂.cons ?_ (ih (fun j hj => hge j (List.mem_cons_of_mem _ hj)) htail)
      have hka : k ≤ a := hge a (List.mem_cons_self _ _)
      have hca : k + (a - k) = a := by omega
      rw [hca]
      exact hab

lemma sorted_map_add (k : Nat) {pos : List Nat}
    (h : List.Sorted (fun a b => a < b) pos) :
    List.Sorted (fun a b => a < b) (pos.map (fun j => k + j)) := by
  rw [List.Sorted, List.pairwise_map]
  exact h.imp (by omega)

lemma sorted_map_sub (k : Nat) {pos : List Nat}
    (hge : ∀ j ∈ pos, k ≤ j)
    (h : List.Sorted (fun a b => a < b) pos) :
    List.Sorted (fun a b => a < b) (pos.map (fun j => j - k)) := by
  rw [List.Sorted, List.pairwise_map]
  refine List.Pairwise.imp_of_mem ?_ h
  intro a b ha hb hab
  have := hge a ha
  omega

lemma match_flow_iff_increasing (db : Database) :
    ∀ (query : List QueryOps) (flow : List UnitFlow),
      db.match_flow flow query = true ↔ IncreasingMatch db flow query := by
  intro query
  induction query with
  | nil =>
    intro flow
    constructor
    · intro _
      exact ⟨[], List.sorted_nil, List.Forall₂.nil⟩
    · intro _
      exact match_flow_nil_query db flow
  | cons q rest ih =>
    intro flow
    rw [match_flow_cons_iff]
    constructor
    · rintro ⟨i, hi, hm, hrec⟩
      obtain ⟨pos', hs', hf'⟩ := (ih _).mp hrec
      refine ⟨i :: pos'.map (fun j => (i + 1) + j), ?_, ?_⟩
      · rw [List.sorted_cons]
        refine ⟨?_, sorted_map_add (i + 1) hs'⟩
        intro b hb
        obtain ⟨j, _, rfl⟩ := List.mem_map.mp hb
        omega
      · refine List.Forall₂.cons ⟨flow[i], by simp, hm⟩ ?_
        have hf'' : List.Forall₂
            (fun j q => ∃ u, flow[(i + 1) + j]? = some u ∧ db.match_unit_flow u q = true)
            pos' rest := by
          refine hf'.imp ?_
          intro a b hab
          rwa [List.getElem?_drop] at hab
        exact forall₂_shift_up
          (fun j q => ∃ u, flow[j]? = some u ∧ db.match_unit_flow u q = true) (i + 1) hf''
    · rintro ⟨pos, hs, hf⟩
      cases hf with
      | cons hab htail =>
        rename_i i pos'
        obtain ⟨u, hu, hm⟩ := hab
        obtain ⟨hi, hiu⟩ := List.getElem?_eq_some_iff.mp hu
        rw [List.sorted_cons] at hs
        obtain ⟨hlt, hs'⟩ := hs
        refine ⟨i, hi, by rw [hiu]; exact hm, ?_⟩
        refine (ih _).mpr ?_
        refine ⟨pos'.map (fun j => j - (i + 1)),
          sorted_map_sub _ (fun j hj => by have := hlt j hj; omega) hs', ?_⟩
        have h2 := forall₂_shift_down
          (fun j q => ∃ u, flow[j]? = some u ∧ db.match_unit_flow u q = true) (i + 1)
          (fun j hj => by have := hlt j hj; omega) htail
        refine h2.imp ?_
        intro a b hab2
        rw [List.getElem?_drop]
        exact hab2

lemma mem_flow_typevar_count_pos (db : Database) {flow : List UnitFlow} {tv : TypeVar}
    (hf : flow ∈ db.data_flows) (htv : UnitFlow.TypeVar tv ∈ flow) :
    0 < db.count_typevar_flows tv.name := by
  unfold Database.count_typevar_flows
  refine List.length_pos_of_mem (a := flow) ?_
  refine List.mem_filter.mpr ⟨hf, ?_⟩
  refine List.any_eq_true.mpr ⟨UnitFlow.TypeVar tv, htv, ?_⟩
  simp

lemma match_flow_mem (db : Database) :
    ∀ (query : List QueryOps) (flow : List UnitFlow),
      db.match_flow flow query = true →
      ∀ qop ∈ query, ∃ u ∈ flow, db.match_unit_flow u qop = true := by
  intro query
  induction query with
  | nil => intro flow _ qop hq; cases hq
  | cons q rest ih =>
    intro flow hm qop hq
    rw [match_flow_cons_iff] at hm
    obtain ⟨i, hi, hmi, hrec⟩ := hm
    rcases List.mem_cons.mp hq with rfl | hq'
    · exact ⟨flow[i], List.getElem_mem hi, hmi⟩
    · obtain ⟨u, hu, hmu⟩ := ih _ hrec qop hq'
      exact ⟨u, List.mem_of_mem_drop hu, hmu⟩

/-- C1: `match_flow` returns true iff the query's predicates can be satisfied,
in order, by a strictly increasing sequence of positions in the flow
(ordered subsequence matching; matched positions need not be contiguous). -/
theorem C1_match_flow_iff_subsequence (db : Database) (flow : List UnitFlow)
    (query : List QueryOps) :
    db.match_flow flow query = true ↔ IncreasingMatch db flow query :=
  match_flow_iff_increasing db query flow

/-- C5: a token/predicate pair whose variants are unrelated never matches (and
raises no error — `match_unit_flow` is total by construction), and a `QDesc`
predicate matches a token of any variant iff that token's description field is
present and equals the text exactly. -/
theorem C5_unrelated_false_and_desc (db : Database) (uf : UnitFlow) (q : QueryOps)
    (d : List Char) :
    (unrelatedPair uf q = true → db.match_unit_flow uf q = false) ∧
    (db.match_unit_flow uf (QueryOps.QDesc d) = true ↔ uf.desc = some d) := by
  constructor
  · intro h
    cases uf <;> cases q <;> simp_all [unrelatedPair, Database.match_unit_flow]
  · cases uf <;> simp [Database.match_unit_flow, UnitFlow.desc]

/-- Witness for C5 at a concrete unrelated pair: a `QType` predicate against a
`ConstructorArg` token returns false. -/
theorem C5_witness :
    (Database.mk [] [] [] []).match_unit_flow
      (UnitFlow.ConstructorArg ⟨['f'], 0, none⟩) (QueryOps.QType ⟨['f'], none⟩) = false :=
  (C5_unrelated_false_and_desc (Database.mk [] [] [] [])
    (UnitFlow.ConstructorArg ⟨['f'], 0, none⟩) (QueryOps.QType ⟨['f'], none⟩) []).1 (by decide)

/-- C6: a `ConstructorArg` token matches a `QConstructorArg` predicate iff the
names agree and, when the predicate carries an `arg_index`, the indices agree;
an absent `arg_index` is a wildcard on that field, and the predicate's `desc`
field never influences the result. -/
theorem C6_constructor_arg_wildcard (db : Database) (c : ConstructorArg)
    (q : QConstructorArg) :
    (db.match_unit_flow (UnitFlow.ConstructorArg c) (QueryOps.QConstructorArg q) = true ↔
      (c.name = q.name ∧ (q.arg_index = none ∨ q.arg_index = some c.arg_index))) ∧
    (∀ d1 d2 : Option (List Char),
      db.match_unit_flow (UnitFlow.ConstructorArg c)
          (QueryOps.QConstructorArg ⟨q.name, q.arg_index, d1⟩) =
        db.match_unit_flow (UnitFlow.ConstructorArg c)
          (QueryOps.QConstructorArg ⟨q.name, q.arg_index, d2⟩)) := by
  constructor
  · cases hq : q.arg_index with
    | none => simp [Database.match_unit_flow, hq]
    | some idx =>
      simp [Database.match_unit_flow, hq]
      exact fun _ => eq_comm
  · intro d1 d2
    rfl

/-- C8: the empty query matches every flow (including the empty one), while a
non-empty query against an exhausted flow fails. -/
theorem C8_empty_query_identity (db : Database) (flow : List UnitFlow) (q : QueryOps)
    (rest : List QueryOps) :
    db.match_flow flow [] = true ∧ db.match_flow [] (q :: rest) = false :=
  ⟨match_flow_nil_query db flow, rfl⟩

/-- C9: the search driver returns exactly the matching flows, in the database's
original flow order (a sublist of `data_flows`), and the empty list exactly when
no flow matches. -/
theorem C9_search_filters_in_order (db : Database) (query : List QueryOps) :
    (search_dataflows db query).Sublist db.data_flows ∧
    (∀ f, f ∈ search_dataflows db query ↔ f ∈ db.data_flows ∧ db.match_flow f query = true) ∧
    (search_dataflows db query = [] ↔ ∀ f ∈ db.data_flows, db.match_flow f query = false) := by
  refine ⟨List.filter_sublist _, ?_, ?_⟩
  · intro f
    simp [search_dataflows, List.mem_filter]
  · simp [search_dataflows, List.filter_eq_nil_iff]

/-- C10: no token of a flow that belongs to the database satisfies
`QTypeVar 0` (its own flow already contains the variable, so the degree is at
least 1), hence any query containing `#0` matches no flow of the database. -/
theorem C10_degree_zero_never_matches (db : Database) (flow : List UnitFlow)
    (query : List QueryOps) (hf : flow ∈ db.data_flows) :
    (∀ u ∈ flow, db.match_unit_flow u (QueryOps.QTypeVar 0) = false) ∧
    (QueryOps.QTypeVar 0 ∈ query → db.match_flow flow query = false) := by
  have hunit : ∀ u ∈ flow, db.match_unit_flow u (QueryOps.QTypeVar 0) = false := by
    intro u hu
    cases u with
    | TypeVar tv =>
      have hpos := mem_flow_typevar_count_pos db hf hu
      simp only [Database.match_unit_flow, beq_eq_false_iff_ne, ne_eq]
      omega
    | Typ t => rfl
    | ConstructorArg c => rfl
    | ProgLoc p => rfl
  refine ⟨hunit, ?_⟩
  intro hq
  by_contra hne
  have hmt : db.match_flow flow query = true := by
    cases h : db.match_flow flow query
    · exact absurd h hne
    · rfl
  obtain ⟨u, hu, hmu⟩ := match_flow_mem db query flow hmt _ hq
  rw [hunit u hu] at hmu
  cases hmu

/-- Witness for C10: a database with one flow containing a type variable; the
query `[#0]` does not match that flow. -/
theorem C10_witness :
    (Database.mk [[UnitFlow.TypeVar ⟨['a'], none⟩]] [] [] []).match_flow
      [UnitFlow.TypeVar ⟨['a'], none⟩] [QueryOps.QTypeVar 0] = false :=
  (C10_degree_zero_never_matches (Database.mk [[UnitFlow.TypeVar ⟨['a'], none⟩]] [] [] [])
    [UnitFlow.TypeVar ⟨['a'], none⟩] [QueryOps.QTypeVar 0] (by decide)).2 (by decide)

lemma filter_length_congr {p p' : List UnitFlow → Bool} :
    ∀ {l l' : List (List UnitFlow)},
      List.Forall₂ (fun f f' => p f = p' f') l l' →
      (l.filter p).length = (l'.filter p').length := by
  intro l
  induction l with
  | nil => intro l' h; cases h; rfl
  | cons a t ih =>
    intro l' h
    cases h with
    | cons hab htail =>
      rename_i b t'
      simp only [List.filter_cons, hab]
      cases hpb : p' b <;> simp [hpb, ih htail]

lemma count_typevar_flows_eq_spec (db : Database) (n : List Char) :
    db.count_typevar_flows n = flowsContainingTypeVar db n := by
  unfold Database.count_typevar_flows flowsContainingTypeVar
  congr 1
  apply List.filter_congr
  intro flow _
  by_cases hex : ∃ u ∈ flow, IsTypeVarNamed n u
  · rw [decide_eq_true hex]
    obtain ⟨u, hu, hpu⟩ := hex
    refine List.any_eq_true.mpr ⟨u, hu, ?_⟩
    cases u <;> simp_all [IsTypeVarNamed]
  · rw [decide_eq_false hex]
    rw [List.any_eq_false]
    intro u hu hpu
    refine hex ⟨u, hu, ?_⟩
    cases u <;> simp_all [IsTypeVarNamed]

/-- C2: `QTypeVar k` matches a `TypeVar` token named `n` iff exactly `k`
distinct flows of the database contain some `TypeVar` token named `n`; the
result depends on each flow only through whether it contains the name at all,
not on how many times the name recurs within a flow. -/
theorem C2_degree_consistency (db : Database) (k : Nat) (tv : TypeVar) :
    (db.match_unit_flow (UnitFlow.TypeVar tv) (QueryOps.QTypeVar k) = true ↔
      flowsContainingTypeVar db tv.name = k) ∧
    (∀ db' : Database,
      List.Forall₂ (fun f f' =>
        ((∃ u ∈ f, IsTypeVarNamed tv.name u) ↔ (∃ u ∈ f', IsTypeVarNamed tv.name u)))
        db.data_flows db'.data_flows →
      db.match_unit_flow (UnitFlow.TypeVar tv) (QueryOps.QTypeVar k) =
        db'.match_unit_flow (UnitFlow.TypeVar tv) (QueryOps.QTypeVar k)) := by
  constructor
  · simp only [Database.match_unit_flow, beq_iff_eq, count_typevar_flows_eq_spec]
  · intro db' hff
    have hc : db.count_typevar_flows tv.name = db'.count_typevar_flows tv.name := by
      rw [count_typevar_flows_eq_spec, count_typevar_flows_eq_spec]
      unfold flowsContainingTypeVar
      exact filter_length_congr (hff.imp (fun _ _ h => decide_eq_decide.mpr h))
    simp only [Database.match_unit_flow, hc]

/-- Witness for C2: a flow mentioning the variable `a` twice counts the same as
a flow mentioning it once. -/
theorem C2_witness :
    (Database.mk [[UnitFlow.TypeVar ⟨['a'], none⟩, UnitFlow.TypeVar ⟨['a'], none⟩]]
        [] [] []).match_unit_flow (UnitFlow.TypeVar ⟨['a'], none⟩) (QueryOps.QTypeVar 1) =
      (Database.mk [[UnitFlow.TypeVar ⟨['a'], none⟩]]
        [] [] []).match_unit_flow (UnitFlow.TypeVar ⟨['a'], none⟩) (QueryOps.QTypeVar 1) :=
  (C2_degree_consistency
    (Database.mk [[UnitFlow.TypeVar ⟨['a'], none⟩, UnitFlow.TypeVar ⟨['a'], none⟩]] [] [] [])
    1 ⟨['a'], none⟩).2
    (Database.mk [[UnitFlow.TypeVar ⟨['a'], none⟩]] [] [] [])
    (List.Forall₂.cons (by decide) List.Forall₂.nil)

/-- C3 (violated by the code): compiling the query text consisting of a single
double-quote character panics instead of returning a result.  The token passes
the `starts_with('"') && ends_with('"')` test (both look at the same character)
and the slice `s[1..s.len()-1]` = `s[1..0]` has its bounds out of order, which
aborts the process — modelled by `none`. -/
theorem C3_lone_quote_panics :
    QueryOps.parse_token ['"'] = none ∧ QueryOps.parse_query ['"'] = none := by
  decide

lemma splitOnPred_no_delim (p : Char → Bool) :
    ∀ {s : List Char}, (∀ c ∈ s, p c = false) → splitOnPred p s = [s] := by
  intro s
  induction s with
  | nil => intro _; rfl
  | cons c cs ih =>
    intro h
    have hrec := ih (fun x hx => h x (List.mem_cons_of_mem _ hx))
    have hc : p c = false := h c (List.mem_cons_self _ _)
    simp [splitOnPred, hrec, hc]

lemma splitOnPred_append_delim (p : Char → Bool) (d : Char) (hd : p d = true) :
    ∀ (name desc : List Char), (∀ c ∈ name, p c = false) → (∀ c ∈ desc, p c = false) →
      splitOnPred p (name ++ d :: desc) = [name, desc] := by
  intro name
  induction name with
  | nil =>
    intro desc _ h2
    have hdesc : splitOnPred p desc = [desc] := splitOnPred_no_delim p h2
    simp [splitOnPred, hdesc, hd]
  | cons c cs ih =>
    intro desc h1 h2
    have hrec := ih desc (fun x hx => h1 x (List.mem_cons_of_mem _ hx)) h2
    have hc : p c = false := h1 c (List.mem_cons_self _ _)
    simp [splitOnPred, hrec, hc]

/-- Counterexample to C4 as stated: the claim's "in particular" clause fails
for a description text that parses as a non-negative integer.  `@f:3` compiles
to `arg_index = some 3`, not to `description = "3"`. -/
theorem C4_counterexample :
    QueryOps.parse_token ('@' :: 'f' :: ':' :: ['3']) =
      some (Except.ok (QueryOps.QConstructorArg ⟨['f'], some 3, none⟩)) ∧
    QueryOps.parse_token ('@' :: 'f' :: ':' :: ['3']) ≠
      some (Except.ok (QueryOps.QConstructorArg ⟨['f'], none, some ['3']⟩)) := by
  decide

/-- C4 (amended): after the leading `@` is stripped the compiler splits on
every `.` or `:`; with exactly two parts, a second part that parses as a
non-negative integer becomes `arg_index` and any other second part becomes
`description`; three or more parts are the "Invalid constructor arg syntax"
error.  `@<name>:<desc>` therefore yields `description = desc` only when
`desc` does not parse as a non-negative integer (and `name`, `desc` contain no
`.` or `:`). -/
theorem C4_constructor_arg_rule :
    (∀ rest name second,
      trimList ('@' :: rest) = '@' :: rest →
      splitOnPred (fun c => c == '.' || c == ':') rest = [name, second] →
      QueryOps.parse_token ('@' :: rest) =
        some (Except.ok (QueryOps.QConstructorArg
          (match rustParseUsize second with
           | some idx => ⟨name, some idx, none⟩
           | none => ⟨name, none, some second⟩)))) ∧
    (∀ rest,
      trimList ('@' :: rest) = '@' :: rest →
      3 ≤ (splitOnPred (fun c => c == '.' || c == ':') rest).length →
      QueryOps.parse_token ('@' :: rest) =
        some (Except.error ("Invalid constructor arg syntax".toList))) ∧
    (∀ name desc,
      trimList ('@' :: (name ++ ':' :: desc)) = '@' :: (name ++ ':' :: desc) →
      (∀ c ∈ name, (c == '.' || c == ':') = false) →
      (∀ c ∈ desc, (c == '.' || c == ':') = false) →
      rustParseUsize desc = none →
      QueryOps.parse_token ('@' :: (name ++ ':' :: desc)) =
        some (Except.ok (QueryOps.QConstructorArg ⟨name, none, some desc⟩))) := by
  refine ⟨?_, ?_, ?_⟩
  · intro rest name second htrim hsplit
    simp only [QueryOps.parse_token, htrim, hsplit]
    cases hru : rustParseUsize second <;> simp [hru]
  · intro rest htrim h3
    rcases hsp : splitOnPred (fun c => c == '.' || c == ':') rest with _ | ⟨a, _ | ⟨b, _ | ⟨c, t⟩⟩⟩
    · rw [hsp] at h3; simp at h3
    · rw [hsp] at h3; simp at h3
    · rw [hsp] at h3; simp at h3
    · simp [QueryOps.parse_token, htrim, hsp]
  · intro name desc htrim h1 h2 hnum
    have hsp := splitOnPred_append_delim (fun c => c == '.' || c == ':') ':' (by decide)
      name desc h1 h2
    simp [QueryOps.parse_token, htrim, hsp, hnum]

/-- Witness for C4 (amended) at a concrete input: `@f:ab` yields the
description form. -/
theorem C4_witness :
    QueryOps.parse_token ('@' :: (['f'] ++ ':' :: ['a', 'b'])) =
      some (Except.ok (QueryOps.QConstructorArg ⟨['f'], none, some ['a', 'b']⟩)) :=
  C4_constructor_arg_rule.2.2 ['f'] ['a', 'b'] (by decide) (by decide) (by decide) (by decide)

lemma collect_tokens_length :
    ∀ {ts : List (List Char)} {qs : List QueryOps},
      QueryOps.collect_tokens ts = some (Except.ok qs) → qs.length = ts.length := by
  intro ts
  induction ts with
  | nil =>
    intro qs h
    simp only [QueryOps.collect_tokens, Option.some.injEq] at h
    cases h
    rfl
  | cons t ts ih =>
    intro qs h
    simp only [QueryOps.collect_tokens] at h
    cases hp : QueryOps.parse_token t with
    | none => rw [hp] at h; simp at h
    | some r =>
      rw [hp] at h
      cases r with
      | error e => simp at h
      | ok q =>
        cases hc : QueryOps.collect_tokens ts with
        | none => rw [hc] at h; simp at h
        | some r2 =>
          rw [hc] at h
          cases r2 with
          | error e => simp at h
          | ok qs2 =>
            simp only [Option.some.injEq] at h
            cases h
            simp [ih hc]

/-- C7: compilation splits on commas, trims each field, drops empty fields and
translates each remaining token to exactly one predicate; in particular the
representative query from the spec compiles to the expected three predicates,
and consecutive or trailing commas are dropped. -/
theorem C7_compiler_splits_commas :
    (QueryOps.parse_query ("bool,@Tuple.1,\"if-then-else condition\"".toList) =
      some (Except.ok [QueryOps.QType ⟨"bool".toList, none⟩,
        QueryOps.QConstructorArg ⟨"Tuple".toList, some 1, none⟩,
        QueryOps.QDesc ("if-then-else condition".toList)])) ∧
    (QueryOps.parse_query (" bool , ,,@Tuple.1 ,, ".toList) =
      some (Except.ok [QueryOps.QType ⟨"bool".toList, none⟩,
        QueryOps.QConstructorArg ⟨"Tuple".toList, some 1, none⟩])) ∧
    (∀ input qs, QueryOps.parse_query input = some (Except.ok qs) →
      qs.length =
        (((splitOnPred (fun c => c == ',') input).map trimList).filter
          (fun s => !s.isEmpty)).length) := by
  refine ⟨by decide, by decide, ?_⟩
  intro input qs h
  exact collect_tokens_length h

/-- Witness for C7's per-token clause at a concrete input. -/
theorem C7_witness :
    ([QueryOps.QType ⟨"bool".toList, none⟩] : List QueryOps).length =
      (((splitOnPred (fun c => c == ',') ("bool".toList)).map trimList).filter
        (fun s => !s.isEmpty)).length :=
  C7_compiler_splits_commas.2.2 ("bool".toList) [QueryOps.QType ⟨"bool".toList, none⟩]
    (by decide)
